import Mathlib

/-!
Verification development for the chat-relay core of the practice-math worker.

The JavaScript source is shallowly embedded: JavaScript strings are lists of
characters, `JSON.parse` is modelled by an executable JSON parser, the SSE
decoder of `streamChatResponse` (src/worker/lib/claude.js) is a fold over
chunks, and the handler `handleChatMessage` together with its background
`processStream` tap (src/worker/handlers/chat.js) is a pure function from the
request, the stored rows and the upstream response to the handler result.
Database helpers from src/worker/lib/db.js are modelled as pure operations on
row lists.
-/

namespace PracticeMath

/-- A JavaScript string, modelled as its list of characters.  `TextDecoder`
with `stream: true` reassembles code points split across byte chunks, so the
byte stream is faithfully modelled at character granularity. -/
abbrev Str := List Char

/-- Characters of a Lean string literal, used to write concrete inputs. -/
def chars (s : String) : Str := s.data

/-- JSON whitespace (also used by the model of `String.prototype.trim`). -/
def isWsChar (c : Char) : Bool :=
  c = ' ' || c = '\t' || c = '\n' || c = '\r'

def skipWs (l : Str) : Str := l.dropWhile isWsChar

/-- Model of `s.split('\n')` as used by the decoder: the first component is
the list of complete (newline-terminated) lines, the second is the final
fragment after the last newline.  JavaScript's `split` returns the
concatenation `lines ++ [fragment]`. -/
def splitNl : Str → List Str × Str
  | [] => ([], [])
  | c :: cs =>
    let r := splitNl cs
    if c = '\n' then ([] :: r.1, r.2)
    else
      match r with
      | ([], frag) => ([], c :: frag)
      | (l :: ls, frag) => ((c :: l) :: ls, frag)

/-! JSON values and a model of `JSON.parse` / `JSON.stringify`.  Numbers keep
their raw literal text; the number grammar is modelled as a greedy scan of
number characters, which only affects lines the decoder would skip or ignore
anyway. -/

inductive Json : Type where
  | null : Json
  | bool (b : Bool) : Json
  | num (raw : Str) : Json
  | str (s : Str) : Json
  | arr (xs : List Json) : Json
  | obj (fields : List (Str × Json)) : Json

def hexVal (c : Char) : Option Nat :=
  if '0' ≤ c ∧ c ≤ '9' then some (c.toNat - 48)
  else if 'a' ≤ c ∧ c ≤ 'f' then some (c.toNat - 87)
  else if 'A' ≤ c ∧ c ≤ 'F' then some (c.toNat - 55)
  else none

def escChar (e : Char) : Option Char :=
  if e = '"' then some '"'
  else if e = '\\' then some '\\'
  else if e = '/' then some '/'
  else if e = 'b' then some '\x08'
  else if e = 'f' then some '\x0c'
  else if e = 'n' then some '\n'
  else if e = 'r' then some '\r'
  else if e = 't' then some '\t'
  else none

/-- Parse the body of a JSON string literal (the opening quote has already
been consumed); returns the decoded characters and the input after the
closing quote. -/
def parseStrBody : Str → Option (Str × Str)
  | [] => none
  | c :: rest =>
    if c = '"' then some ([], rest)
    else if c = '\\' then
      match rest with
      | [] => none
      | e :: rest2 =>
        if e = 'u' then
          match rest2 with
          | h1 :: h2 :: h3 :: h4 :: rest3 =>
            match hexVal h1, hexVal h2, hexVal h3, hexVal h4, parseStrBody rest3 with
            | some a, some b, some c2, some d, some (s, r) =>
              some (Char.ofNat (((a * 16 + b) * 16 + c2) * 16 + d) :: s, r)
            | _, _, _, _, _ => none
          | _ => none
        else
          match escChar e, parseStrBody rest2 with
          | some ch, some (s, r) => some (ch :: s, r)
          | _, _ => none
    else
      match parseStrBody rest with
      | some (s, r) => some (c :: s, r)
      | none => none

def isNumChar (c : Char) : Bool :=
  ('0' ≤ c && c ≤ '9') || c = '-' || c = '+' || c = '.' || c = 'e' || c = 'E'

def isNumStart (c : Char) : Bool :=
  ('0' ≤ c && c ≤ '9') || c = '-'

/-- Parse mode: a JSON value, the members of an object (after `{` or `,`),
or the elements of an array (after `[` or `,`).  Member and element runs are
returned already wrapped in `Json.obj` / `Json.arr`.  The fuel argument makes
the recursion structural; `parseJson` supplies more than enough. -/
inductive PMode : Type where
  | value
  | members
  | elems

def runParse : Nat → PMode → Str → Option (Json × Str)
  | 0, _, _ => none
  | f + 1, PMode.value, l =>
    match skipWs l with
    | [] => none
    | c :: rest =>
      if c = '"' then
        match parseStrBody rest with
        | some (s, r) => some (Json.str s, r)
        | none => none
      else if c = '{' then
        match skipWs rest with
        | '}' :: r2 => some (Json.obj [], r2)
        | r2 => runParse f PMode.members r2
      else if c = '[' then
        match skipWs rest with
        | ']' :: r2 => some (Json.arr [], r2)
        | r2 => runParse f PMode.elems r2
      else if c = 't' then
        match rest with
        | 'r' :: 'u' :: 'e' :: r2 => some (Json.bool true, r2)
        | _ => none
      else if c = 'f' then
        match rest with
        | 'a' :: 'l' :: 's' :: 'e' :: r2 => some (Json.bool false, r2)
        | _ => none
      else if c = 'n' then
        match rest with
        | 'u' :: 'l' :: 'l' :: r2 => some (Json.null, r2)
        | _ => none
      else if isNumStart c then
        some (Json.num (c :: rest.takeWhile isNumChar), rest.dropWhile isNumChar)
      else none
  | f + 1, PMode.members, l =>
    match skipWs l with
    | '"' :: rest =>
      match parseStrBody rest with
      | none => none
      | some (k, r1) =>
        match skipWs r1 with
        | ':' :: r2 =>
          match runParse f PMode.value r2 with
          | none => none
          | some (v, r3) =>
            match skipWs r3 with
            | ',' :: r4 =>
              match runParse f PMode.members r4 with
              | some (Json.obj fs, r5) => some (Json.obj ((k, v) :: fs), r5)
              | _ => none
            | '}' :: r4 => some (Json.obj [(k, v)], r4)
            | _ => none
        | _ => none
    | _ => none
  | f + 1, PMode.elems, l =>
    match runParse f PMode.value l with
    | none => none
    | some (v, r1) =>
      match skipWs r1 with
      | ',' :: r2 =>
        match runParse f PMode.elems r2 with
        | some (Json.arr xs, r3) => some (Json.arr (v :: xs), r3)
        | _ => none
      | ']' :: r2 => some (Json.arr [v], r2)
      | _ => none

/-- Model of `JSON.parse`: `none` models a thrown `SyntaxError`. -/
def parseJson (s : Str) : Option Json :=
  match runParse (2 * s.length + 8) PMode.value s with
  | some (j, rest) => if skipWs rest = [] then some j else none
  | none => none

/-- Property access `o[k]` on a parsed JSON value: only objects have own
properties, and with duplicate keys `JSON.parse` keeps the last one. -/
def jget (j : Json) (k : Str) : Option Json :=
  match j with
  | Json.obj fields => ((fields.filter (fun f => decide (f.1 = k))).getLast?).map (fun f => f.2)
  | _ => none

def numIsZero (raw : Str) : Bool :=
  (raw.takeWhile (fun c => decide (c ≠ 'e') && decide (c ≠ 'E'))).all
    (fun c => c = '0' || c = '.' || c = '-' || c = '+')

/-- JavaScript truthiness of a parsed JSON value. -/
def jsTruthy (j : Json) : Bool :=
  match j with
  | Json.null => false
  | Json.bool b => b
  | Json.num raw => !numIsZero raw
  | Json.str s => !s.isEmpty
  | Json.arr _ => true
  | Json.obj _ => true

/-- JavaScript string coercion of a parsed JSON value, as used by
`fullText += event.delta.text`.  Numbers keep their literal text; the
provider only ever puts strings in the coerced positions. -/
def jsToStr (j : Json) : Str :=
  match j with
  | Json.null => chars "null"
  | Json.bool true => chars "true"
  | Json.bool false => chars "false"
  | Json.num raw => raw
  | Json.str s => s
  | Json.arr _ => []
  | Json.obj _ => []

def hexDigit (n : Nat) : Char :=
  if n < 10 then Char.ofNat (48 + n) else Char.ofNat (87 + n)

/-- Escaping of one character inside a `JSON.stringify` string literal. -/
def escapeChar (c : Char) : Str :=
  if c = '"' then ['\\', '"']
  else if c = '\\' then ['\\', '\\']
  else if c = '\n' then ['\\', 'n']
  else if c = '\r' then ['\\', 'r']
  else if c = '\t' then ['\\', 't']
  else if c = '\x08' then ['\\', 'b']
  else if c = '\x0c' then ['\\', 'f']
  else if c.toNat < 32 then ['\\', 'u', '0', '0', hexDigit (c.toNat / 16), hexDigit (c.toNat % 16)]
  else [c]

def jsonEscape (s : Str) : Str := (s.map escapeChar).flatten

/-- A `JSON.stringify` string literal, quotes included. -/
def quoteStr (s : Str) : Str := '"' :: (jsonEscape s ++ ['"'])

/-! Event Decoder: the chunk loop of `streamChatResponse`
(src/worker/lib/claude.js, lines 131-184). -/

/-- A normalized stream event, one per enqueued SSE frame. -/
inductive Frame : Type where
  | delta (text : Str)
  | done (fullText : Str)
  | error (msg : Str)
deriving DecidableEq

/-- Decoder loop state: `buffer` is the rolling line buffer, `fullText` the
accumulator, `out` the frames enqueued so far. -/
structure DecSt where
  buffer : Str
  fullText : Str
  out : List Frame
deriving DecidableEq

def initDecSt : DecSt := ⟨[], [], []⟩

def typeIs (j : Json) (t : Str) : Bool :=
  match jget j (chars "type") with
  | some (Json.str s) => decide (s = t)
  | _ => false

/-- The optional-chaining access `event.delta?.text`. -/
def deltaTextVal (j : Json) : Option Json :=
  match jget j (chars "delta") with
  | some d => jget d (chars "text")
  | none => none

/-- Processing of the payload of one `data: ` line (claude.js lines 148-174):
skip `[DONE]`, `JSON.parse` inside try/catch, emit a `delta` frame and extend
the accumulator on a truthy `content_block_delta` text, emit a `done` frame on
`message_stop`. -/
def handleData (st : DecSt) (data : Str) : DecSt :=
  if data = chars "[DONE]" then st
  else
    match parseJson data with
    | none => st
    | some ev =>
      let st1 :=
        match deltaTextVal ev with
        | some tv =>
          if typeIs ev (chars "content_block_delta") && jsTruthy tv then
            { st with fullText := st.fullText ++ jsToStr tv,
                      out := st.out ++ [Frame.delta (jsToStr tv)] }
          else st
        | none => st
      if typeIs ev (chars "message_stop") then
        { st1 with out := st1.out ++ [Frame.done st1.fullText] }
      else st1

def dataHead : Str := chars "data: "

/-- One complete line (claude.js lines 146-147): only lines starting with
`data: ` are handled, and `line.slice(6)` strips that head. -/
def processLine (st : DecSt) (line : Str) : DecSt :=
  if line.take 6 = dataHead then handleData st (line.drop 6) else st

/-- One read chunk (claude.js lines 140-177): append to the buffer, split on
newline, keep the final fragment as the new buffer, process complete lines. -/
def processChunk (st : DecSt) (chunk : Str) : DecSt :=
  { (splitNl (st.buffer ++ chunk)).1.foldl processLine st with
      buffer := (splitNl (st.buffer ++ chunk)).2 }

def decodeChunks (chunks : List Str) : DecSt :=
  chunks.foldl processChunk initDecSt

/-- The upstream HTTP response observed by `streamChatResponse`: the status
check outcome, the error body text when not ok, and the body's byte chunks
in read order when ok. -/
structure Upstream where
  ok : Bool
  errorBody : Str
  chunks : List Str

/-- The sequence of frames `streamChatResponse` enqueues for one upstream
response (claude.js lines 106-185): an `error` frame with the full error body
on a non-success status, otherwise the decoded frames followed by the
unconditional final `done` carrying the accumulator. -/
def streamChatResponse (u : Upstream) : List Frame :=
  if u.ok then
    let st := decodeChunks u.chunks
    st.out ++ [Frame.done st.fullText]
  else
    [Frame.error u.errorBody]

/-- The exact bytes of one enqueued SSE frame (claude.js lines 125, 159, 168,
182): `data: ` + `JSON.stringify` of the payload + blank line. -/
def encodeFrame (f : Frame) : Str :=
  match f with
  | Frame.delta t =>
    chars "data: \x7b\"type\":\"delta\",\"text\":" ++ quoteStr t ++ chars "\x7d\n\n"
  | Frame.done t =>
    chars "data: \x7b\"type\":\"done\",\"fullText\":" ++ quoteStr t ++ chars "\x7d\n\n"
  | Frame.error m =>
    chars "data: \x7b\"type\":\"error\",\"error\":" ++ quoteStr m ++ chars "\x7d\n\n"

/-- The chunk sequence of the `ReadableStream` returned by
`streamChatResponse`: one chunk per enqueued frame, in order. -/
def streamChunks (u : Upstream) : List Str :=
  (streamChatResponse u).map encodeFrame

/-! Chunk-boundary invariance of the decoder. -/

/-- Character-at-a-time reference decoder: a newline completes the buffered
line, any other character extends the buffer. -/
def stepChar (st : DecSt) (c : Char) : DecSt :=
  if c = '\n' then processLine { st with buffer := [] } st.buffer
  else { st with buffer := st.buffer ++ [c] }

def feedChars (st : DecSt) (cs : Str) : DecSt := cs.foldl stepChar st

def cleanBuf (st : DecSt) : Prop := ∀ c ∈ st.buffer, c ≠ '\n'

/-! Accumulator correctness: `fullText` always equals the concatenation of the
emitted delta texts. -/

def deltaConcat (frames : List Frame) : Str :=
  (frames.filterMap (fun f => match f with | Frame.delta t => some t | _ => none)).flatten

def DoneOk (frames : List Frame) : Prop :=
  ∀ pre ft post, frames = pre ++ Frame.done ft :: post → ft = deltaConcat pre

def DecInv (st : DecSt) : Prop :=
  st.fullText = deltaConcat st.out ∧ DoneOk st.out

/-! Client Relay and Persistence Finalizer: the `processStream` loop of
`handleChatMessage` (src/worker/handlers/chat.js, lines 81-113).  Each read
chunk is first written to the client, then decoded and scanned for `done`
events; every matching event triggers one `addMessage` call.  A rejected
`addMessage` promise is caught by the surrounding try/catch, which ends the
loop, so chunks after the failure are neither read nor written. -/

/-- The tap's event check (chat.js line 97): `event.type === 'done' &&
event.fullText`; on success the persisted text is `event.fullText`. -/
def doneText (ev : Json) : Option Str :=
  if typeIs ev (chars "done") then
    match jget ev (chars "fullText") with
    | some v => if jsTruthy v then some (jsToStr v) else none
    | none => none
  else none

/-- One line of the tap (chat.js lines 94-104): `data: ` lines are parsed in
a try/catch and a passing `done` event appends one assistant text. -/
def tapLine (rows : List Str) (line : Str) : List Str :=
  if line.take 6 = dataHead then
    match parseJson (line.drop 6) with
    | none => rows
    | some ev =>
      match doneText ev with
      | some t => rows ++ [t]
      | none => rows
  else rows

/-- The assistant texts one chunk makes the tap persist (chat.js lines
91-105): the chunk is decoded and split on newline with no rolling buffer,
and every segment (the final fragment included) is scanned. -/
def chunkRows (chunk : Str) : List Str :=
  ((splitNl chunk).1 ++ [(splitNl chunk).2]).foldl tapLine []

/-- Run the `addMessage` calls of one chunk against the failure oracle
`fails` (call index passed in): returns the rows actually persisted, the next
call index, and whether all calls succeeded.  A failing call persists nothing
and aborts the remaining calls of the chunk. -/
def runPersists (fails : Nat → Bool) : Nat → List Str → List Str × Nat × Bool
  | n, [] => ([], n, true)
  | n, p :: ps =>
    if fails n then ([], n + 1, false)
    else
      match runPersists fails (n + 1) ps with
      | (r, m, ok) => (p :: r, m, ok)

/-- One observable action of the relay loop: a chunk written to the client,
or an assistant row persisted to storage. -/
inductive RelayAct : Type where
  | write (chunk : Str)
  | persist (row : Str)
deriving DecidableEq

def relayAux (fails : Nat → Bool) : Nat → List Str → List RelayAct
  | _, [] => []
  | n, c :: rest =>
    match runPersists fails n (chunkRows c) with
    | (r, m, ok) =>
      RelayAct.write c ::
        (r.map RelayAct.persist ++ (if ok then relayAux fails m rest else []))

/-- The action trace of `processStream` on a chunk sequence: each chunk is
written before it is inspected, and a persistence failure ends the loop. -/
def processStream (fails : Nat → Bool) (chunks : List Str) : List RelayAct :=
  relayAux fails 0 chunks

def writtenChunks (acts : List RelayAct) : List Str :=
  acts.filterMap (fun a => match a with | RelayAct.write c => some c | RelayAct.persist _ => none)

def persistedRows (acts : List RelayAct) : List Str :=
  acts.filterMap (fun a => match a with | RelayAct.persist r => some r | RelayAct.write _ => none)

/-- Per-chunk interleaving shape: each chunk's write action, then the persist
actions its inspection produced. -/
def interleaveActs : List Str → List (List Str) → List RelayAct
  | [], _ => []
  | c :: cs, rs :: rss => RelayAct.write c :: (rs.map RelayAct.persist ++ interleaveActs cs rss)
  | c :: cs, [] => RelayAct.write c :: interleaveActs cs []

/-! Message store and the chat handler `handleChatMessage`
(src/worker/handlers/chat.js, lines 31-126), with the db.js helpers
`getMessages` and `addMessage` modelled on the message rows of one
conversation. -/

inductive Role : Type where
  | user
  | assistant
deriving DecidableEq

/-- One row of the `messages` table for the active conversation; `rid` models
the AUTOINCREMENT primary key, here the insertion index. -/
structure Row where
  rid : Nat
  role : Role
  content : Str
deriving DecidableEq

/-- Model of `addMessage` (db.js lines 131-136): INSERT appends a row with
the next id. -/
def addMessage (store : List Row) (role : Role) (content : Str) : List Row :=
  store ++ [⟨store.length, role, content⟩]

/-- Model of `getMessages` (db.js lines 118-126): SELECT ... ORDER BY id ASC
LIMIT `limit`; rows are stored in id order, so this is a take. -/
def getMessages (store : List Row) (limit : Nat) : List Row :=
  store.take limit

def MAX_HISTORY : Nat := 50

def MAX_MESSAGE_LENGTH : Nat := 5000

/-- Model of `String.prototype.trim` over the whitespace the handler can
meet. -/
def jsTrim (s : Str) : Str :=
  ((s.dropWhile isWsChar).reverse.dropWhile isWsChar).reverse

structure ImageData where
  mediaType : Str
  base64 : Str
deriving DecidableEq

/-- Content of one message sent to the Claude API: plain text, or an image
content block followed by a text block. -/
inductive MsgContent : Type where
  | text (t : Str)
  | imageAndText (mediaType : Str) (base64 : Str) (t : Str)
deriving DecidableEq

structure Msg where
  role : Role
  content : MsgContent
deriving DecidableEq

/-- Model of `buildMessages` (claude.js lines 209-239): map the history to
role/content pairs, then push the new user message, as a vision content
block pair when image data is present. -/
def buildMessages (history : List (Role × Str)) (newMessage : Str)
    (imageData : Option ImageData) : List Msg :=
  let messages := history.map (fun m => Msg.mk m.1 (MsgContent.text m.2))
  match imageData with
  | some img =>
    messages ++ [Msg.mk Role.user (MsgContent.imageAndText img.mediaType img.base64 newMessage)]
  | none => messages ++ [Msg.mk Role.user (MsgContent.text newMessage)]

/-- The `content` field of the request body as JavaScript sees it:
missing/null/undefined, some non-string value, or a string. -/
inductive ContentField : Type where
  | absent
  | nonString (truthy : Bool)
  | str (s : Str)

/-- The message list `handleChatMessage` sends upstream (chat.js lines
59-68): persist the trimmed content as a user row, fetch at most
`MAX_HISTORY` rows, drop the last fetched row, and re-attach the trimmed
content as the newest turn. -/
def sentMessages (store : List Row) (s : Str) (imageData : Option ImageData) : List Msg :=
  buildMessages
    (((getMessages (addMessage store Role.user (jsTrim s)) MAX_HISTORY).dropLast).map
      (fun r => (r.role, r.content)))
    (jsTrim s) imageData

/-- Modelled from the spec claim's words (refinement reference for the C5
claim, not code): the fetched bounded history with the just-persisted user
message excluded by row identity, followed by the new user message
re-attached as the newest turn. -/
def claimSentMessages (store : List Row) (s : Str) (imageData : Option ImageData) : List Msg :=
  buildMessages
    (((getMessages (addMessage store Role.user (jsTrim s)) MAX_HISTORY).filter
        (fun r => decide (r.rid ≠ store.length))).map (fun r => (r.role, r.content)))
    (jsTrim s) imageData

/-- Result of one `handleChatMessage` call: an early JSON rejection, or the
committed SSE response; both carry the final message store.  For the SSE
case, `messages` is the list sent upstream, `written` the chunks delivered to
the client. -/
inductive ChatResult : Type where
  | reject (status : Nat) (store : List Row)
  | sse (status : Nat) (messages : List Msg) (written : List Str) (store : List Row)
deriving DecidableEq

/-- Model of `handleChatMessage` (chat.js lines 31-126).  Besides the request
fields, it takes the configured-key flag, the current rows of the active
conversation, the upstream response `u` and the persistence failure oracle
`fails`.  Assistant rows appended by the tap are folded into the final
store. -/
def handleChatMessage (content : ContentField) (imageData : Option ImageData)
    (apiKeySet : Bool) (store : List Row) (u : Upstream) (fails : Nat → Bool) : ChatResult :=
  match content with
  | ContentField.absent => ChatResult.reject 400 store
  | ContentField.nonString _ => ChatResult.reject 400 store
  | ContentField.str s =>
    if jsTrim s = [] then ChatResult.reject 400 store
    else if MAX_MESSAGE_LENGTH < s.length then ChatResult.reject 400 store
    else if ¬ apiKeySet then ChatResult.reject 500 store
    else
      ChatResult.sse 200 (sentMessages store s imageData)
        (writtenChunks (processStream fails (streamChunks u)))
        ((persistedRows (processStream fails (streamChunks u))).foldl
          (fun st t => addMessage st Role.assistant t)
          (addMessage store Role.user (jsTrim s)))

/-! Conversation store and the db.js conversation helpers. -/

structure Conv where
  cid : Nat
  userId : Nat
  isActive : Bool
deriving DecidableEq

/-- The `conversations` table (ordered by id) plus the AUTOINCREMENT
counter. -/
structure ConvStore where
  convs : List Conv
  nextCid : Nat
deriving DecidableEq

def isActiveFor (uid : Nat) (c : Conv) : Bool :=
  decide (c.userId = uid) && c.isActive

/-- Model of `getOrCreateConversation` (db.js lines 71-86): reuse an active
conversation when one exists, else INSERT one (`is_active` defaults to 1 in
the schema). -/
def getOrCreateConversation (st : ConvStore) (uid : Nat) : ConvStore :=
  if st.convs.any (isActiveFor uid) then st
  else ⟨st.convs ++ [⟨st.nextCid, uid, true⟩], st.nextCid + 1⟩

/-- Model of `startNewConversation` (db.js lines 91-101): deactivate the
user's active conversations, then INSERT a fresh active one. -/
def startNewConversation (st : ConvStore) (uid : Nat) : ConvStore :=
  ⟨(st.convs.map (fun c => if isActiveFor uid c then { c with isActive := false } else c)) ++
      [⟨st.nextCid, uid, true⟩],
    st.nextCid + 1⟩

/-- Model of `clearAllConversations` (db.js lines 106-111): DELETE all of the
user's conversations. -/
def clearAllConversations (st : ConvStore) (uid : Nat) : ConvStore :=
  { st with convs := st.convs.filter (fun c => decide (c.userId ≠ uid)) }

def activeCount (st : ConvStore) (uid : Nat) : Nat :=
  (st.convs.filter (isActiveFor uid)).length

/-- At most one conversation per user is active. -/
def ConvInv (st : ConvStore) : Prop :=
  ∀ uid, activeCount st uid ≤ 1

inductive ConvOp : Type where
  | getOrCreate (uid : Nat)
  | startNew (uid : Nat)
  | clearAll (uid : Nat)

def applyConvOp (st : ConvStore) : ConvOp → ConvStore
  | ConvOp.getOrCreate uid => getOrCreateConversation st uid
  | ConvOp.startNew uid => startNewConversation st uid
  | ConvOp.clearAll uid => clearAllConversations st uid

def applyConvOps (st : ConvStore) (ops : List ConvOp) : ConvStore :=
  ops.foldl applyConvOp st

/-! Concrete inputs used by the claim theorems, and the claim theorems
themselves. -/

def isTerminal (f : Frame) : Bool :=
  match f with
  | Frame.delta _ => false
  | Frame.done _ => true
  | Frame.error _ => true

def countTerminal (frames : List Frame) : Nat :=
  (frames.filter isTerminal).length

/-- An upstream chunk carrying one `content_block_delta` event with text
`4`, exactly as the Anthropic API frames it. -/
def deltaChunk4 : Str :=
  chars "data: \x7b\"type\":\"content_block_delta\",\"delta\":\x7b\"type\":\"text_delta\",\"text\":\"4\"\x7d\x7d\n\n"

/-- An upstream chunk carrying one `message_stop` event. -/
def stopChunk : Str := chars "data: \x7b\"type\":\"message_stop\"\x7d\n\n"

/-- A normal successful upstream response: one text delta, then the stop
signal, then the stream ends. -/
def uStop : Upstream := ⟨true, [], [deltaChunk4, stopChunk]⟩

/-- A conversation that already holds 50 messages. -/
def store50 : List Row := (List.range 50).map (fun i => ⟨i, Role.user, chars "a"⟩)

/-- The rejection condition of the handler's validation (chat.js lines
35-46): missing or non-string content, whitespace-only content, or content
longer than `MAX_MESSAGE_LENGTH` characters. -/
def InvalidContent : ContentField → Prop
  | ContentField.absent => True
  | ContentField.nonString _ => True
  | ContentField.str s => jsTrim s = [] ∨ MAX_MESSAGE_LENGTH < s.length

/-- The newest user turn `buildMessages` appends: a plain text block, or an
image block followed by the text. -/
def newTurn (imageData : Option ImageData) (t : Str) : MsgContent :=
  match imageData with
  | some img => MsgContent.imageAndText img.mediaType img.base64 t
  | none => MsgContent.text t

/-! Theorems. -/

theorem splitNl_no_nl {l : Str} (h : ∀ c ∈ l, c ≠ '\n') : splitNl l = ([], l) := by
  induction l with
  | nil => rfl
  | cons c cs ih =>
    have hc : c ≠ '\n' := h c (List.mem_cons_self c cs)
    have ihh := ih (fun x hx => h x (List.mem_cons_of_mem c hx))
    simp [splitNl, hc, ihh]

theorem splitNl_append_nl {x y : Str} (h : ∀ c ∈ x, c ≠ '\n') :
    splitNl (x ++ '\n' :: y) = (x :: (splitNl y).1, (splitNl y).2) := by
  induction x with
  | nil => simp [splitNl]
  | cons c cs ih =>
    have hc : c ≠ '\n' := h c (List.mem_cons_self c cs)
    have ihh := ih (fun a ha => h a (List.mem_cons_of_mem c ha))
    simp only [List.cons_append, splitNl, hc, if_neg hc]
    rw [show cs.append ('\n' :: y) = cs ++ '\n' :: y from rfl, ihh]
    simp

theorem splitNl_frag_no_nl (l : Str) : ∀ c ∈ (splitNl l).2, c ≠ '\n' := by
  induction l with
  | nil => intro c hc; simp [splitNl] at hc
  | cons c cs ih =>
    intro a ha
    by_cases hc : c = '\n'
    · subst hc
      simp only [splitNl, if_pos rfl] at ha
      exact ih a ha
    · simp only [splitNl, if_neg hc] at ha
      rcases hr : splitNl cs with ⟨ls, frag⟩
      rw [hr] at ha
      cases ls with
      | nil =>
        simp at ha
        rcases ha with rfl | ha
        · exact hc
        · exact ih a (by rw [hr]; exact ha)
      | cons hd tl =>
        simp at ha
        exact ih a (by rw [hr]; exact ha)

theorem handleData_setBuf (st : DecSt) (b d : Str) :
    handleData { st with buffer := b } d = { handleData st d with buffer := b } := by
  unfold handleData
  by_cases h1 : d = chars "[DONE]"
  · simp [h1]
  · simp only [h1, if_false]
    cases parseJson d with
    | none => rfl
    | some ev =>
      simp only
      cases deltaTextVal ev with
      | none =>
        by_cases h2 : typeIs ev (chars "message_stop") <;> simp [h2]
      | some tv =>
        by_cases h3 : typeIs ev (chars "content_block_delta") && jsTruthy tv <;>
          by_cases h2 : typeIs ev (chars "message_stop") <;> simp [h2, h3]

theorem processLine_setBuf (st : DecSt) (b line : Str) :
    processLine { st with buffer := b } line = { processLine st line with buffer := b } := by
  unfold processLine
  by_cases h : line.take 6 = dataHead
  · simp [h, handleData_setBuf]
  · simp [h]

theorem foldl_processLine_setBuf (ls : List Str) (st : DecSt) (b : Str) :
    ls.foldl processLine { st with buffer := b } =
      { ls.foldl processLine st with buffer := b } := by
  induction ls generalizing st with
  | nil => rfl
  | cons l ls ih =>
    simp only [List.foldl_cons, processLine_setBuf, ih]

theorem processChunk_eq_feedChars (cs : Str) (st : DecSt) (h : cleanBuf st) :
    processChunk st cs = feedChars st cs := by
  induction cs generalizing st with
  | nil =>
    show processChunk st [] = st
    unfold processChunk
    rw [List.append_nil, splitNl_no_nl h]
    rfl
  | cons c cs ih =>
    by_cases hc : c = '\n'
    · subst hc
      show processChunk st ('\n' :: cs) = feedChars (stepChar st '\n') cs
      have hstep : stepChar st '\n' =
          { processLine st st.buffer with buffer := [] } := by
        unfold stepChar
        rw [if_pos rfl, processLine_setBuf]
      have hclean : cleanBuf (stepChar st '\n') := by
        rw [hstep]; intro x hx; simp at hx
      rw [← ih _ hclean, hstep]
      unfold processChunk
      rw [splitNl_append_nl h]
      simp only [List.nil_append, List.foldl_cons, foldl_processLine_setBuf]
    · show processChunk st (c :: cs) = feedChars (stepChar st c) cs
      have hstep : stepChar st c = { st with buffer := st.buffer ++ [c] } := by
        unfold stepChar; rw [if_neg hc]
      have hclean : cleanBuf (stepChar st c) := by
        rw [hstep]
        intro x hx
        simp only [List.mem_append, List.mem_singleton] at hx
        rcases hx with hx | rfl
        · exact h x hx
        · exact hc
      rw [← ih _ hclean, hstep]
      unfold processChunk
      rw [show ({ st with buffer := st.buffer ++ [c] } : DecSt).buffer ++ cs =
            st.buffer ++ c :: cs by simp]
      rw [foldl_processLine_setBuf _ st (st.buffer ++ [c])]

theorem processChunk_clean (st : DecSt) (chunk : Str) : cleanBuf (processChunk st chunk) :=
  fun c hc => splitNl_frag_no_nl _ c hc

theorem foldl_processChunk_eq_feedChars (chunks : List Str) (st : DecSt) (h : cleanBuf st) :
    chunks.foldl processChunk st = feedChars st chunks.flatten := by
  induction chunks generalizing st with
  | nil => rfl
  | cons c cs ih =>
    simp only [List.foldl_cons, List.flatten_cons]
    rw [ih _ (processChunk_clean st c), processChunk_eq_feedChars c st h]
    unfold feedChars
    rw [List.foldl_append]

theorem initDecSt_clean : cleanBuf initDecSt := by
  intro c hc; simp [initDecSt] at hc

theorem split_snoc {α : Type} (l : List α) (x : α) (pre post : List α) (a : α)
    (h : l ++ [x] = pre ++ a :: post) :
    (pre = l ∧ a = x ∧ post = []) ∨
      (∃ post', post = post' ++ [x] ∧ l = pre ++ a :: post') := by
  rcases List.eq_nil_or_concat post with rfl | ⟨q, y, rfl⟩
  · left
    have := List.append_inj' h (by rfl)
    exact ⟨this.1.symm, (by simpa using this.2.symm), rfl⟩
  · right
    rw [List.concat_eq_append,
      show pre ++ a :: (q ++ [y]) = (pre ++ a :: q) ++ [y] by simp] at h
    have := List.append_inj' h (by rfl)
    exact ⟨q, by simp [List.concat_eq_append, (show x = y by simpa using this.2)], this.1⟩

theorem deltaConcat_append (xs ys : List Frame) :
    deltaConcat (xs ++ ys) = deltaConcat xs ++ deltaConcat ys := by
  unfold deltaConcat
  rw [List.filterMap_append, List.flatten_append]

theorem deltaConcat_delta (xs : List Frame) (t : Str) :
    deltaConcat (xs ++ [Frame.delta t]) = deltaConcat xs ++ t := by
  rw [deltaConcat_append]
  simp [deltaConcat]

theorem deltaConcat_done (xs : List Frame) (t : Str) :
    deltaConcat (xs ++ [Frame.done t]) = deltaConcat xs := by
  rw [deltaConcat_append]
  simp [deltaConcat]

theorem decInv_snoc_delta {st : DecSt} (h : DecInv st) (t : Str) :
    DecInv { st with fullText := st.fullText ++ t, out := st.out ++ [Frame.delta t] } := by
  constructor
  · simp only [deltaConcat_delta, h.1]
  · intro pre ft post heq
    rcases split_snoc _ _ _ _ _ heq with ⟨rfl, hax, rfl⟩ | ⟨post', rfl, hsplit⟩
    · cases hax
    · exact h.2 pre ft post' hsplit

theorem decInv_snoc_done {st : DecSt} (h : DecInv st) :
    DecInv { st with out := st.out ++ [Frame.done st.fullText] } := by
  constructor
  · simp only [deltaConcat_done, h.1]
  · intro pre ft post heq
    rcases split_snoc _ _ _ _ _ heq with ⟨rfl, hax, rfl⟩ | ⟨post', rfl, hsplit⟩
    · cases hax; exact h.1
    · exact h.2 pre ft post' hsplit

theorem decInv_handleData {st : DecSt} (h : DecInv st) (d : Str) :
    DecInv (handleData st d) := by
  unfold handleData
  by_cases h1 : d = chars "[DONE]"
  · simpa [h1]
  · simp only [h1, if_false]
    cases parseJson d with
    | none => exact h
    | some ev =>
      simp only
      have hst1 : DecInv (match deltaTextVal ev with
          | some tv =>
            if typeIs ev (chars "content_block_delta") && jsTruthy tv then
              { st with fullText := st.fullText ++ jsToStr tv,
                        out := st.out ++ [Frame.delta (jsToStr tv)] }
            else st
          | none => st) := by
        cases deltaTextVal ev with
        | none => exact h
        | some tv =>
          by_cases h3 : typeIs ev (chars "content_block_delta") && jsTruthy tv
          · simpa [h3] using decInv_snoc_delta h (jsToStr tv)
          · simpa [h3] using h
      by_cases h2 : typeIs ev (chars "message_stop")
      · simpa [h2] using decInv_snoc_done hst1
      · simpa [h2] using hst1

theorem decInv_processLine {st : DecSt} (h : DecInv st) (line : Str) :
    DecInv (processLine st line) := by
  unfold processLine
  by_cases hl : line.take 6 = dataHead
  · simpa [hl] using decInv_handleData h (line.drop 6)
  · simpa [hl] using h

theorem decInv_setBuf {st : DecSt} (h : DecInv st) (b : Str) :
    DecInv { st with buffer := b } := h

theorem decInv_foldl_processLine {st : DecSt} (h : DecInv st) (ls : List Str) :
    DecInv (ls.foldl processLine st) := by
  induction ls generalizing st with
  | nil => exact h
  | cons l ls ih => exact ih (decInv_processLine h l)

theorem decInv_processChunk {st : DecSt} (h : DecInv st) (chunk : Str) :
    DecInv (processChunk st chunk) :=
  decInv_setBuf (decInv_foldl_processLine h _) _

theorem decInv_foldl_processChunk {st : DecSt} (h : DecInv st) (chunks : List Str) :
    DecInv (chunks.foldl processChunk st) := by
  induction chunks generalizing st with
  | nil => exact h
  | cons c cs ih => exact ih (decInv_processChunk h c)

theorem decInv_initDecSt : DecInv initDecSt := by
  constructor
  · rfl
  · intro pre ft post heq
    exact absurd heq (by simp [initDecSt])

theorem decInv_decodeChunks (chunks : List Str) : DecInv (decodeChunks chunks) :=
  decInv_foldl_processChunk decInv_initDecSt chunks

theorem runPersists_noFail {fails : Nat → Bool} (h : ∀ n, fails n = false)
    (n : Nat) (ps : List Str) : runPersists fails n ps = (ps, n + ps.length, true) := by
  induction ps generalizing n with
  | nil => simp [runPersists]
  | cons p ps ih =>
    simp [runPersists, h n, ih (n + 1)]
    omega

@[simp] theorem writtenChunks_nil : writtenChunks [] = [] := rfl

@[simp] theorem writtenChunks_cons_write (c : Str) (acts : List RelayAct) :
    writtenChunks (RelayAct.write c :: acts) = c :: writtenChunks acts := by
  simp [writtenChunks]

@[simp] theorem writtenChunks_cons_persist (r : Str) (acts : List RelayAct) :
    writtenChunks (RelayAct.persist r :: acts) = writtenChunks acts := by
  simp [writtenChunks]

@[simp] theorem writtenChunks_append (a b : List RelayAct) :
    writtenChunks (a ++ b) = writtenChunks a ++ writtenChunks b := by
  simp [writtenChunks]

@[simp] theorem writtenChunks_map_persist (rs : List Str) :
    writtenChunks (rs.map RelayAct.persist) = [] := by
  induction rs with
  | nil => rfl
  | cons r rs ih => simp [ih]

@[simp] theorem persistedRows_nil : persistedRows [] = [] := rfl

@[simp] theorem persistedRows_cons_write (c : Str) (acts : List RelayAct) :
    persistedRows (RelayAct.write c :: acts) = persistedRows acts := by
  simp [persistedRows]

@[simp] theorem persistedRows_cons_persist (r : Str) (acts : List RelayAct) :
    persistedRows (RelayAct.persist r :: acts) = r :: persistedRows acts := by
  simp [persistedRows]

@[simp] theorem persistedRows_append (a b : List RelayAct) :
    persistedRows (a ++ b) = persistedRows a ++ persistedRows b := by
  simp [persistedRows]

@[simp] theorem persistedRows_map_persist (rs : List Str) :
    persistedRows (rs.map RelayAct.persist) = rs := by
  induction rs with
  | nil => rfl
  | cons r rs ih => simp [ih]

theorem writtenChunks_interleave (cs : List Str) (rss : List (List Str)) :
    writtenChunks (interleaveActs cs rss) = cs := by
  induction cs generalizing rss with
  | nil => rfl
  | cons c cs ih =>
    cases rss with
    | nil => simp [interleaveActs, ih]
    | cons rs rss => simp [interleaveActs, ih]

theorem relayAux_interleave (fails : Nat → Bool) (chunks : List Str) (n : Nat) :
    ∃ k rss, k ≤ chunks.length ∧
      relayAux fails n chunks = interleaveActs (chunks.take k) rss := by
  induction chunks generalizing n with
  | nil => exact ⟨0, [], by simp, rfl⟩
  | cons c rest ih =>
    rcases hrun : runPersists fails n (chunkRows c) with ⟨r, m, ok⟩
    cases ok with
    | false =>
      refine ⟨1, [r], by simp, ?_⟩
      simp [relayAux, hrun, interleaveActs]
    | true =>
      rcases ih m with ⟨k, rss, hk, heq⟩
      refine ⟨k + 1, r :: rss, by simpa using hk, ?_⟩
      simp [relayAux, hrun, interleaveActs, heq]

theorem relayAux_noFail {fails : Nat → Bool} (h : ∀ n, fails n = false)
    (chunks : List Str) (n : Nat) :
    writtenChunks (relayAux fails n chunks) = chunks ∧
      persistedRows (relayAux fails n chunks) = (chunks.map chunkRows).flatten := by
  induction chunks generalizing n with
  | nil => exact ⟨rfl, rfl⟩
  | cons c rest ih =>
    have hrun := runPersists_noFail h n (chunkRows c)
    rcases ih (n + (chunkRows c).length) with ⟨ihw, ihp⟩
    constructor
    · simp [relayAux, hrun, ihw]
    · simp [relayAux, hrun, ihp]

theorem filter_and_length_le {α : Type} (p q : α → Bool) (l : List α) :
    (l.filter (fun a => p a && q a)).length ≤ (l.filter p).length := by
  have hcomm : l.filter (fun a => p a && q a) = l.filter (fun a => q a && p a) :=
    List.filter_congr (fun x _ => Bool.and_comm _ _)
  rw [hcomm, ← List.filter_filter]
  exact List.length_filter_le _ _

theorem activeCount_eq (st : ConvStore) (uid : Nat) :
    activeCount st uid = (st.convs.filter (isActiveFor uid)).length := rfl

theorem convInv_getOrCreate {st : ConvStore} (h : ConvInv st) (uid : Nat) :
    ConvInv (getOrCreateConversation st uid) := by
  unfold getOrCreateConversation
  by_cases hany : st.convs.any (isActiveFor uid) = true
  · rw [if_pos hany]; exact h
  · rw [if_neg hany]
    intro uid'
    rw [activeCount_eq]
    simp only [List.filter_append, List.length_append]
    by_cases huid : uid' = uid
    · subst huid
      have h1 : st.convs.filter (isActiveFor uid') = [] := by
        rw [List.filter_eq_nil_iff]
        intro c hc
        exact List.any_eq_false.mp (Bool.eq_false_iff.mpr hany ▸ rfl) c hc
      have h2 : ([(⟨st.nextCid, uid', true⟩ : Conv)].filter (isActiveFor uid')).length ≤ 1 :=
        List.length_filter_le _ _
      rw [h1]
      simpa using h2
    · have h2 : ([(⟨st.nextCid, uid, true⟩ : Conv)].filter (isActiveFor uid')) = [] := by
        simp only [List.filter_eq_nil_iff, List.mem_singleton]
        rintro c rfl
        simp [isActiveFor]
        exact fun hc => absurd hc.symm huid
      rw [h2]
      simpa [activeCount_eq] using h uid'

theorem convInv_startNew {st : ConvStore} (h : ConvInv st) (uid : Nat) :
    ConvInv (startNewConversation st uid) := by
  unfold startNewConversation
  intro uid'
  rw [activeCount_eq]
  simp only [List.filter_append, List.length_append]
  by_cases huid : uid' = uid
  · subst huid
    have h1 : (st.convs.map
        (fun c => if isActiveFor uid' c then { c with isActive := false } else c)).filter
          (isActiveFor uid') = [] := by
      rw [List.filter_eq_nil_iff]
      intro c hc
      rcases List.mem_map.mp hc with ⟨c0, _, rfl⟩
      by_cases hact : isActiveFor uid' c0
      · have hcond : c0.userId = uid' ∧ c0.isActive = true := by
          simp [isActiveFor] at hact
          exact hact
        simp [isActiveFor, hcond]
      · simp [hact]
    have h2 : ([(⟨st.nextCid, uid', true⟩ : Conv)].filter (isActiveFor uid')).length ≤ 1 :=
      List.length_filter_le _ _
    rw [h1]
    simpa using h2
  · have h1 : (st.convs.map
        (fun c => if isActiveFor uid c then { c with isActive := false } else c)).filter
          (isActiveFor uid') =
        (st.convs.filter
          ((isActiveFor uid') ∘ (fun c => if isActiveFor uid c then { c with isActive := false } else c))).map
          (fun c => if isActiveFor uid c then { c with isActive := false } else c) :=
      List.filter_map _ _
    have hpt : ∀ c ∈ st.convs,
        ((isActiveFor uid') ∘ (fun c => if isActiveFor uid c then { c with isActive := false } else c)) c =
          isActiveFor uid' c := by
      intro c _
      by_cases hact : isActiveFor uid c
      · have hcu : c.userId = uid := by
          have := hact
          simp [isActiveFor] at this
          exact this.1
        simp only [Function.comp, hact, if_pos]
        simp [isActiveFor, hcu]
        intro hc
        exact absurd hc.symm huid
      · simp [Function.comp, hact]
    have h2 : ([(⟨st.nextCid, uid, true⟩ : Conv)].filter (isActiveFor uid')) = [] := by
      simp only [List.filter_eq_nil_iff, List.mem_singleton]
      rintro c rfl
      simp [isActiveFor]
      exact fun hc => absurd hc.symm huid
    rw [h1, h2, List.length_map, List.filter_congr hpt]
    simpa [activeCount_eq] using h uid'

theorem convInv_clearAll {st : ConvStore} (h : ConvInv st) (uid : Nat) :
    ConvInv (clearAllConversations st uid) := by
  unfold clearAllConversations
  intro uid'
  rw [activeCount_eq]
  simp only
  rw [List.filter_filter]
  refine le_trans (filter_and_length_le (isActiveFor uid') _ st.convs) ?_
  simpa [activeCount_eq] using h uid'

theorem convInv_applyConvOp {st : ConvStore} (h : ConvInv st) (op : ConvOp) :
    ConvInv (applyConvOp st op) := by
  cases op with
  | getOrCreate uid => exact convInv_getOrCreate h uid
  | startNew uid => exact convInv_startNew h uid
  | clearAll uid => exact convInv_clearAll h uid

theorem hexVal_hexDigit (n : Nat) (hn : n < 16) : hexVal (hexDigit n) = some n := by
  interval_cases n <;> decide

theorem parseStrBody_roundtrip (m : Str) (r : Str) :
    parseStrBody (jsonEscape m ++ '"' :: r) = some (m, r) := by
  induction m with
  | nil => simp [jsonEscape, parseStrBody.eq_def]
  | cons c m ih =>
    have hesc : jsonEscape (c :: m) = escapeChar c ++ jsonEscape m := by
      simp [jsonEscape]
    rw [hesc, List.append_assoc]
    unfold escapeChar
    split_ifs with h1 h2 h3 h4 h5 h6 h7 h8
    · subst h1; rw [parseStrBody.eq_def]; simp [escChar, ih]
    · subst h2; rw [parseStrBody.eq_def]; simp [escChar, ih]
    · subst h3; rw [parseStrBody.eq_def]; simp [escChar, ih]
    · subst h4; rw [parseStrBody.eq_def]; simp [escChar, ih]
    · subst h5; rw [parseStrBody.eq_def]; simp [escChar, ih]
    · subst h6; rw [parseStrBody.eq_def]; simp [escChar, ih]
    · subst h7; rw [parseStrBody.eq_def]; simp [escChar, ih]
    · have hd1 : c.toNat / 16 < 16 := Nat.div_lt_of_lt_mul (by omega)
      have hd2 : c.toNat % 16 < 16 := Nat.mod_lt _ (by norm_num)
      rw [List.cons_append, List.cons_append, List.cons_append, List.cons_append,
        List.cons_append, List.cons_append, List.nil_append]
      rw [parseStrBody.eq_def]
      simp only [hexVal_hexDigit _ hd1, hexVal_hexDigit _ hd2, ih,
        show hexVal '0' = some 0 from rfl]
      norm_num
      rw [show (c.toNat / 16) * 16 + c.toNat % 16 = c.toNat by omega]
      rw [Char.ofNat_toNat]
      simp
    · rw [List.cons_append, List.nil_append, parseStrBody.eq_def]
      simp [h1, h2, ih]

theorem skipWs_cons_not (c : Char) (l : Str) (h : isWsChar c = false) :
    skipWs (c :: l) = c :: l := by
  simp [skipWs, List.dropWhile, h]

theorem skipWs_brace (l : Str) : skipWs ('{' :: l) = '{' :: l := skipWs_cons_not '{' l (by decide)

theorem skipWs_quote (l : Str) : skipWs ('"' :: l) = '"' :: l := skipWs_cons_not '"' l (by decide)

theorem skipWs_colon (l : Str) : skipWs (':' :: l) = ':' :: l := skipWs_cons_not ':' l (by decide)

theorem skipWs_comma (l : Str) : skipWs (',' :: l) = ',' :: l := skipWs_cons_not ',' l (by decide)

theorem skipWs_rbrace (l : Str) : skipWs ('}' :: l) = '}' :: l := skipWs_cons_not '}' l (by decide)

set_option maxRecDepth 4000 in
theorem runParse_obj2 (f : Nat) (k1 v1 k2 v2 : Str) :
    runParse (f + 4) PMode.value
      ('{' :: '"' :: (jsonEscape k1 ++ '"' :: ':' :: '"' ::
        (jsonEscape v1 ++ '"' :: ',' :: '"' ::
          (jsonEscape k2 ++ '"' :: ':' :: '"' ::
            (jsonEscape v2 ++ '"' :: '}' :: []))))) =
      some (Json.obj [(k1, Json.str v1), (k2, Json.str v2)], []) := by
  rw [show f + 4 = (f + 3) + 1 from rfl]
  simp [runParse.eq_def, skipWs_brace, skipWs_quote,
    skipWs_colon, skipWs_comma, skipWs_rbrace, parseStrBody_roundtrip]

theorem parseJson_obj2 (k1 v1 k2 v2 : Str) :
    parseJson
      ('{' :: '"' :: (jsonEscape k1 ++ '"' :: ':' :: '"' ::
        (jsonEscape v1 ++ '"' :: ',' :: '"' ::
          (jsonEscape k2 ++ '"' :: ':' :: '"' ::
            (jsonEscape v2 ++ '"' :: '}' :: []))))) =
      some (Json.obj [(k1, Json.str v1), (k2, Json.str v2)]) := by
  unfold parseJson
  rw [show 2 * ('{' :: '"' :: (jsonEscape k1 ++ '"' :: ':' :: '"' ::
        (jsonEscape v1 ++ '"' :: ',' :: '"' ::
          (jsonEscape k2 ++ '"' :: ':' :: '"' ::
            (jsonEscape v2 ++ '"' :: '}' :: []))))).length + 8 =
      2 * ('{' :: '"' :: (jsonEscape k1 ++ '"' :: ':' :: '"' ::
        (jsonEscape v1 ++ '"' :: ',' :: '"' ::
          (jsonEscape k2 ++ '"' :: ':' :: '"' ::
            (jsonEscape v2 ++ '"' :: '}' :: []))))).length + 4 + 4 from rfl]
  rw [runParse_obj2]
  rfl

theorem escapeChar_no_nl (c : Char) : '\n' ∉ escapeChar c := by
  unfold escapeChar
  split_ifs with h1 h2 h3 h4 h5 h6 h7 h8
  · decide
  · decide
  · decide
  · decide
  · decide
  · decide
  · decide
  · intro hmem
    have hd1 : c.toNat / 16 < 16 := Nat.div_lt_of_lt_mul (by omega)
    have hd2 : c.toNat % 16 < 16 := Nat.mod_lt _ (by norm_num)
    simp only [List.mem_cons] at hmem
    rcases hmem with h | h | h | h | h | h | h
    · exact absurd h (by decide)
    · exact absurd h (by decide)
    · exact absurd h (by decide)
    · exact absurd h (by decide)
    · revert h
      have := hexVal_hexDigit _ hd1
      intro h
      rw [← h] at this
      simp [hexVal] at this
    · revert h
      have := hexVal_hexDigit _ hd2
      intro h
      rw [← h] at this
      simp [hexVal] at this
    · simp at h
  · intro hmem
    simp only [List.mem_singleton] at hmem
    exact h3 hmem.symm

theorem jsonEscape_no_nl (s : Str) : '\n' ∉ jsonEscape s := by
  intro h
  unfold jsonEscape at h
  rw [List.mem_flatten] at h
  rcases h with ⟨l, hl, hmem⟩
  rcases List.mem_map.mp hl with ⟨c, _, rfl⟩
  exact escapeChar_no_nl c hmem

theorem tapLine_nil_line (rows : List Str) : tapLine rows [] = rows := rfl

theorem doneText_obj_error (m : Str) :
    doneText (Json.obj [(chars "type", Json.str (chars "error")),
      (chars "error", Json.str m)]) = none := by
  unfold doneText
  rw [show typeIs (Json.obj [(chars "type", Json.str (chars "error")),
      (chars "error", Json.str m)]) (chars "done") = false from rfl]
  rfl

theorem chunkRows_error (m : Str) : chunkRows (encodeFrame (Frame.error m)) = [] := by
  have hshape : encodeFrame (Frame.error m) =
      (chars "data: \x7b\"type\":\"error\",\"error\":" ++ (quoteStr m ++ ['}'])) ++
        '\n' :: '\n' :: [] := by
    show chars "data: \x7b\"type\":\"error\",\"error\":" ++ quoteStr m ++ chars "\x7d\n\n" = _
    simp [List.append_assoc]
    rfl
  have hA : ∀ x ∈ chars "data: \x7b\"type\":\"error\",\"error\":", x ≠ '\n' := by decide
  have hLnl : ∀ c ∈ chars "data: \x7b\"type\":\"error\",\"error\":" ++ (quoteStr m ++ ['}']),
      c ≠ '\n' := by
    intro c hc
    rcases List.mem_append.mp hc with h | h
    · exact hA c h
    · rcases List.mem_append.mp h with h | h
      · rcases List.mem_cons.mp h with rfl | h
        · decide
        · rcases List.mem_append.mp h with h | h
          · exact fun hEq => jsonEscape_no_nl m (hEq ▸ h)
          · rcases List.mem_singleton.mp h with rfl
            decide
      · rcases List.mem_singleton.mp h with rfl
        decide
  have hsplit : splitNl (encodeFrame (Frame.error m)) =
      ([chars "data: \x7b\"type\":\"error\",\"error\":" ++ (quoteStr m ++ ['}']), []], []) := by
    rw [hshape]
    rw [show ((chars "data: \x7b\"type\":\"error\",\"error\":" ++ (quoteStr m ++ ['}'])) ++
        '\n' :: '\n' :: [] : Str) =
      (chars "data: \x7b\"type\":\"error\",\"error\":" ++ (quoteStr m ++ ['}'])) ++
        '\n' :: ('\n' :: []) from rfl]
    rw [splitNl_append_nl hLnl]
    rfl
  have hJ : (chars "data: \x7b\"type\":\"error\",\"error\":" ++ (quoteStr m ++ ['}'])).drop 6 =
      '{' :: '"' :: (jsonEscape (chars "type") ++ '"' :: ':' :: '"' ::
        (jsonEscape (chars "error") ++ '"' :: ',' :: '"' ::
          (jsonEscape (chars "error") ++ '"' :: ':' :: '"' ::
            (jsonEscape m ++ '"' :: '}' :: [])))) := by
    show chars "\x7b\"type\":\"error\",\"error\":" ++ (quoteStr m ++ ['}']) = _
    simp [quoteStr, List.append_assoc]
    rfl
  have htap : tapLine [] (chars "data: \x7b\"type\":\"error\",\"error\":" ++
      (quoteStr m ++ ['}'])) = [] := by
    unfold tapLine
    rw [if_pos (show (chars "data: \x7b\"type\":\"error\",\"error\":" ++
        (quoteStr m ++ ['}'])).take 6 = dataHead from rfl)]
    rw [hJ, parseJson_obj2]
    simp [doneText_obj_error]
  unfold chunkRows
  rw [hsplit]
  rw [show (([chars "data: \x7b\"type\":\"error\",\"error\":" ++ (quoteStr m ++ ['}']), []],
      ([] : Str)).1 ++ [([chars "data: \x7b\"type\":\"error\",\"error\":" ++
        (quoteStr m ++ ['}']), []], ([] : Str)).2] : List Str) =
    [chars "data: \x7b\"type\":\"error\",\"error\":" ++ (quoteStr m ++ ['}']), [], []] from rfl]
  rw [List.foldl_cons, htap, List.foldl_cons, tapLine_nil_line, List.foldl_cons,
    tapLine_nil_line, List.foldl_nil]

/-- C1: the spec demands exactly one terminal frame per request, but on a
normal upstream stream that signals `message_stop` the decoder emits a `done`
for the stop event and then unconditionally appends the synthesized final
`done` (claude.js lines 165-171 and 179-184), so the client receives two
terminal `done` frames. -/
theorem claim_C1_two_terminal_frames_on_message_stop :
    streamChatResponse uStop =
      [Frame.delta (chars "4"), Frame.done (chars "4"), Frame.done (chars "4")] ∧
    countTerminal (streamChatResponse uStop) = 2 := by
  constructor
  · decide
  · decide

/-- C2: the tap of `processStream` has no first-only guard (chat.js lines
96-101), so the duplicate `done` frames produced on every `message_stop`
stream each trigger `addMessage`: the handler appends the assistant reply
twice. -/
theorem claim_C2_duplicate_done_persists_two_rows :
    persistedRows (processStream (fun _ => false) (streamChunks uStop)) =
      [chars "4", chars "4"] ∧
    handleChatMessage (ContentField.str (chars "2+2?")) none true [] uStop
        (fun _ => false) =
      ChatResult.sse 200 (sentMessages [] (chars "2+2?") none) (streamChunks uStop)
        [⟨0, Role.user, chars "2+2?"⟩, ⟨1, Role.assistant, chars "4"⟩,
          ⟨2, Role.assistant, chars "4"⟩] := by
  constructor
  · decide
  · decide

/-- C3: decoding any chunk partition of an upstream byte sequence with the
rolling-buffer algorithm gives the same decoder state - in particular the
same ordered event sequence - as decoding the whole sequence as one chunk. -/
theorem claim_C3_chunk_boundary_invariance (chunks : List Str) :
    decodeChunks chunks = decodeChunks [chunks.flatten] := by
  unfold decodeChunks
  rw [foldl_processChunk_eq_feedChars chunks initDecSt initDecSt_clean,
    foldl_processChunk_eq_feedChars [chunks.flatten] initDecSt initDecSt_clean]
  simp

/-- C4: in every emitted `done` frame, `fullText` equals the concatenation,
in emission order, of the texts of all `delta` frames emitted before it. -/
theorem claim_C4_fullText_is_delta_concat (u : Upstream) (pre post : List Frame)
    (ft : Str) (h : streamChatResponse u = pre ++ Frame.done ft :: post) :
    ft = deltaConcat pre := by
  unfold streamChatResponse at h
  by_cases hok : u.ok
  · rw [if_pos hok] at h
    have hinv := decInv_decodeChunks u.chunks
    rcases split_snoc _ _ _ _ _ h with ⟨hpre, hax, hpost⟩ | ⟨post2, hpost, hsplit⟩
    · injection hax with hft
      rw [hft, hpre]
      exact hinv.1
    · exact hinv.2 pre ft post2 hsplit
  · rw [if_neg hok] at h
    exfalso
    cases pre with
    | nil => simp at h
    | cons a pre2 => simp at h

/-- Witness for C4 at the concrete stream `uStop`. -/
theorem claim_C4_fullText_is_delta_concat_witness :
    chars "4" = deltaConcat [Frame.delta (chars "4")] :=
  claim_C4_fullText_is_delta_concat uStop [Frame.delta (chars "4")]
    [Frame.done (chars "4")] (chars "4") (by decide)

/-- C5 counterexample: with 50 prior messages the ascending-order LIMIT-50
fetch returns the oldest 50 rows, which do not contain the just-persisted
user message, so `history.slice(0, -1)` removes the 50th-oldest row instead;
the list actually sent differs from the one the claim describes. -/
theorem claim_C5_counterexample :
    sentMessages store50 (chars "x") none ≠ claimSentMessages store50 (chars "x") none := by
  decide

/-- C5 amended: as long as the conversation, the just-persisted message
included, still fits in the 50-message window (and row ids are fresh, as
AUTOINCREMENT guarantees), the fetched history ends with the just-persisted
user message, so dropping the last fetched row is exactly the exclusion the
claim describes and the claim holds; beyond the window the fetch returns the
oldest 50 rows and the code drops the oldest-window's last row instead. -/
theorem claim_C5_amended_within_window (store : List Row) (s : Str)
    (imageData : Option ImageData) (hlen : store.length < MAX_HISTORY)
    (hids : ∀ r ∈ store, r.rid ≠ store.length) :
    sentMessages store s imageData = claimSentMessages store s imageData := by
  unfold sentMessages claimSentMessages addMessage getMessages
  have htake : (store ++ [(⟨store.length, Role.user, jsTrim s⟩ : Row)]).take MAX_HISTORY =
      store ++ [⟨store.length, Role.user, jsTrim s⟩] := by
    apply List.take_of_length_le
    simp only [List.length_append, List.length_singleton]
    omega
  rw [htake]
  have hdrop : (store ++ [(⟨store.length, Role.user, jsTrim s⟩ : Row)]).dropLast = store :=
    List.dropLast_concat
  have hfilter : (store ++ [(⟨store.length, Role.user, jsTrim s⟩ : Row)]).filter
      (fun r => decide (r.rid ≠ store.length)) = store := by
    rw [List.filter_append]
    rw [show ([(⟨store.length, Role.user, jsTrim s⟩ : Row)].filter
        (fun r => decide (r.rid ≠ store.length))) = [] by simp]
    rw [List.append_nil]
    apply List.filter_eq_self.mpr
    intro r hr
    simpa using hids r hr
  rw [hdrop, hfilter]

/-- Witness for the amended C5 on a one-message conversation. -/
theorem claim_C5_amended_within_window_witness :
    ([(⟨0, Role.user, chars "a"⟩ : Row)].length < MAX_HISTORY) ∧
    sentMessages [⟨0, Role.user, chars "a"⟩] (chars "x") none =
      claimSentMessages [⟨0, Role.user, chars "a"⟩] (chars "x") none :=
  ⟨by decide,
    claim_C5_amended_within_window [⟨0, Role.user, chars "a"⟩] (chars "x") none
      (by decide) (by decide)⟩

/-- C7: every invalid request is rejected with a plain 400 JSON response and
the message store is returned untouched - no conversation lookup, no write,
no stream. -/
theorem claim_C7_validation_short_circuit (content : ContentField)
    (imageData : Option ImageData) (apiKeySet : Bool) (store : List Row)
    (u : Upstream) (fails : Nat → Bool) (h : InvalidContent content) :
    handleChatMessage content imageData apiKeySet store u fails =
      ChatResult.reject 400 store := by
  cases content with
  | absent => rfl
  | nonString t => rfl
  | str s =>
    simp only [handleChatMessage]
    by_cases htrim : jsTrim s = []
    · rw [if_pos htrim]
    · rcases h with h | h
      · exact absurd h htrim
      · rw [if_neg htrim, if_pos h]

/-- Witness for C7 on a whitespace-only message. -/
theorem claim_C7_validation_short_circuit_witness :
    InvalidContent (ContentField.str (chars "   ")) ∧
    handleChatMessage (ContentField.str (chars "   ")) none true [] uStop
        (fun _ => false) = ChatResult.reject 400 [] :=
  ⟨Or.inl (by decide),
    claim_C7_validation_short_circuit (ContentField.str (chars "   ")) none true []
      uStop (fun _ => false) (Or.inl (by decide))⟩

/-- C8: starting from any store where each user has at most one active
conversation, any sequential mix of `getOrCreateConversation`,
`startNewConversation` and `clearAllConversations` calls preserves that
invariant. -/
theorem claim_C8_at_most_one_active_conversation (st : ConvStore)
    (ops : List ConvOp) (h : ConvInv st) : ConvInv (applyConvOps st ops) := by
  unfold applyConvOps
  induction ops generalizing st with
  | nil => exact h
  | cons op ops ih => exact ih _ (convInv_applyConvOp h op)

/-- Witness for C8: the empty store run through one operation of each kind. -/
theorem claim_C8_at_most_one_active_conversation_witness :
    ConvInv (applyConvOps ⟨[], 0⟩
      [ConvOp.getOrCreate 1, ConvOp.startNew 1, ConvOp.clearAll 1]) :=
  claim_C8_at_most_one_active_conversation ⟨[], 0⟩
    [ConvOp.getOrCreate 1, ConvOp.startNew 1, ConvOp.clearAll 1]
    (fun uid => by simp [activeCount])

/-- C6: on a non-success upstream status the stream holds exactly one
`error` frame carrying the full error body; the handler still returns the
already-committed 200 SSE response, the error frame is delivered, and no
assistant row is appended to the store (only the user row persisted before
the upstream call).  The model is total: the error path returns frames
instead of raising. -/
theorem claim_C6_upstream_error_single_error_frame (s : Str)
    (imageData : Option ImageData) (store : List Row) (body : Str)
    (chunks : List Str) (h1 : jsTrim s ≠ [])
    (h2 : ¬ MAX_MESSAGE_LENGTH < s.length) :
    streamChatResponse ⟨false, body, chunks⟩ = [Frame.error body] ∧
    handleChatMessage (ContentField.str s) imageData true store
        ⟨false, body, chunks⟩ (fun _ => false) =
      ChatResult.sse 200 (sentMessages store s imageData)
        [encodeFrame (Frame.error body)]
        (addMessage store Role.user (jsTrim s)) := by
  have hframes : streamChatResponse ⟨false, body, chunks⟩ = [Frame.error body] := rfl
  refine ⟨hframes, ?_⟩
  simp only [handleChatMessage]
  rw [if_neg h1, if_neg h2, if_neg (not_not_intro trivial)]
  have hchunks : streamChunks ⟨false, body, chunks⟩ = [encodeFrame (Frame.error body)] := by
    unfold streamChunks
    rw [hframes]
    rfl
  rw [hchunks]
  unfold processStream
  have hnf : ∀ n, (fun _ => false : Nat → Bool) n = false := fun _ => rfl
  rw [(relayAux_noFail hnf [encodeFrame (Frame.error body)] 0).1,
    (relayAux_noFail hnf [encodeFrame (Frame.error body)] 0).2]
  simp [chunkRows_error]

/-- Witness for C6 with error body `overloaded`. -/
theorem claim_C6_upstream_error_single_error_frame_witness :
    streamChatResponse ⟨false, chars "overloaded", []⟩ = [Frame.error (chars "overloaded")] ∧
    handleChatMessage (ContentField.str (chars "hi")) none true []
        ⟨false, chars "overloaded", []⟩ (fun _ => false) =
      ChatResult.sse 200 (sentMessages [] (chars "hi") none)
        [encodeFrame (Frame.error (chars "overloaded"))]
        (addMessage [] Role.user (jsTrim (chars "hi"))) :=
  claim_C6_upstream_error_single_error_frame (chars "hi") none [] (chars "overloaded")
    [] (by decide) (by decide)

/-- C9: the relay writes every chunk it reads to the client unmodified and
in order, each chunk before the inspection of that chunk (the trace is a
per-chunk write-then-persist interleaving of a prefix of the input), and
when no persistence write fails the written chunks are exactly the input
chunks. -/
theorem claim_C9_relay_forwards_before_inspecting (chunks : List Str)
    (fails : Nat → Bool) :
    (∃ k rss, k ≤ chunks.length ∧
      processStream fails chunks = interleaveActs (chunks.take k) rss) ∧
    (∃ k, k ≤ chunks.length ∧
      writtenChunks (processStream fails chunks) = chunks.take k) ∧
    ((∀ n, fails n = false) → writtenChunks (processStream fails chunks) = chunks) := by
  refine ⟨relayAux_interleave fails chunks 0, ?_, ?_⟩
  · rcases relayAux_interleave fails chunks 0 with ⟨k, rss, hk, heq⟩
    refine ⟨k, hk, ?_⟩
    unfold processStream
    rw [heq, writtenChunks_interleave]
  · intro h
    exact (relayAux_noFail h chunks 0).1

/-- Witness for C9 on a singleton chunk list. -/
theorem claim_C9_relay_forwards_before_inspecting_witness :
    (∃ k rss, k ≤ ([chars "ab"] : List Str).length ∧
      processStream (fun _ => false) [chars "ab"] =
        interleaveActs (([chars "ab"] : List Str).take k) rss) ∧
    (∃ k, k ≤ ([chars "ab"] : List Str).length ∧
      writtenChunks (processStream (fun _ => false) [chars "ab"]) =
        ([chars "ab"] : List Str).take k) ∧
    ((∀ n, (fun _ => false : Nat → Bool) n = false) →
      writtenChunks (processStream (fun _ => false) [chars "ab"]) = [chars "ab"]) :=
  claim_C9_relay_forwards_before_inspecting [chars "ab"] (fun _ => false)

theorem buildMessages_getLast (history : List (Role × Str)) (n : Str)
    (imageData : Option ImageData) :
    (buildMessages history n imageData).getLast? =
      some (Msg.mk Role.user (newTurn imageData n)) := by
  cases imageData with
  | none => simp [buildMessages, newTurn, List.getLast?_concat]
  | some img => simp [buildMessages, newTurn, List.getLast?_concat]

theorem foldl_addMessage_extra (rows : List Str) (st0 : List Row) (role : Role) :
    ∃ extra, rows.foldl (fun st t => addMessage st role t) st0 = st0 ++ extra := by
  induction rows generalizing st0 with
  | nil => exact ⟨[], by simp⟩
  | cons r rows ih =>
    rcases ih (addMessage st0 role r) with ⟨extra, hx⟩
    refine ⟨⟨st0.length, role, r⟩ :: extra, ?_⟩
    rw [List.foldl_cons, hx]
    show (st0 ++ [(⟨st0.length, role, r⟩ : Row)]) ++ extra = _
    rw [List.append_assoc]
    rfl

/-- C10: an accepted request persists the trimmed content as the user row,
sends the same trimmed text as the newest upstream turn, while the length
validation reads the untrimmed content: any string longer than the limit is
rejected regardless of its trimmed form. -/
theorem claim_C10_trimmed_persist_untrimmed_validation (s : Str)
    (imageData : Option ImageData) (store : List Row) (u : Upstream)
    (fails : Nat → Bool) (h1 : jsTrim s ≠ [])
    (h2 : ¬ MAX_MESSAGE_LENGTH < s.length) :
    (∃ written store2,
      handleChatMessage (ContentField.str s) imageData true store u fails =
        ChatResult.sse 200 (sentMessages store s imageData) written store2 ∧
      store2.take (store.length + 1) =
        store ++ [⟨store.length, Role.user, jsTrim s⟩]) ∧
    (sentMessages store s imageData).getLast? =
      some (Msg.mk Role.user (newTurn imageData (jsTrim s))) ∧
    (∀ s2 : Str, MAX_MESSAGE_LENGTH < s2.length →
      handleChatMessage (ContentField.str s2) imageData true store u fails =
        ChatResult.reject 400 store) := by
  refine ⟨?_, ?_, ?_⟩
  · refine ⟨writtenChunks (processStream fails (streamChunks u)),
      (persistedRows (processStream fails (streamChunks u))).foldl
        (fun st t => addMessage st Role.assistant t)
        (addMessage store Role.user (jsTrim s)), ?_, ?_⟩
    · simp only [handleChatMessage]
      rw [if_neg h1, if_neg h2, if_neg (not_not_intro trivial)]
    · rcases foldl_addMessage_extra
        (persistedRows (processStream fails (streamChunks u)))
        (addMessage store Role.user (jsTrim s)) Role.assistant with ⟨extra, hx⟩
      rw [hx]
      rw [show store.length + 1 = (addMessage store Role.user (jsTrim s)).length by
        simp [addMessage]]
      rw [List.take_left]
      rfl
  · exact buildMessages_getLast _ _ _
  · intro s2 hs2
    simp only [handleChatMessage]
    by_cases htrim : jsTrim s2 = []
    · rw [if_pos htrim]
    · rw [if_neg htrim, if_pos hs2]

/-- Witness for C10 on the content `  hi  ` (trimmed to `hi`). -/
theorem claim_C10_trimmed_persist_untrimmed_validation_witness :
    jsTrim (chars "  hi  ") ≠ [] ∧
    (∃ written store2,
      handleChatMessage (ContentField.str (chars "  hi  ")) none true [] uStop
          (fun _ => false) =
        ChatResult.sse 200 (sentMessages [] (chars "  hi  ") none) written store2 ∧
      store2.take 1 = [] ++ [⟨0, Role.user, jsTrim (chars "  hi  ")⟩]) ∧
    (sentMessages [] (chars "  hi  ") none).getLast? =
      some (Msg.mk Role.user (newTurn none (jsTrim (chars "  hi  ")))) ∧
    (∀ s2 : Str, MAX_MESSAGE_LENGTH < s2.length →
      handleChatMessage (ContentField.str s2) none true [] uStop (fun _ => false) =
        ChatResult.reject 400 []) :=
  ⟨by decide,
    claim_C10_trimmed_persist_untrimmed_validation (chars "  hi  ") none [] uStop
      (fun _ => false) (by decide) (by decide)⟩

end PracticeMath
